import Mathlib

/-!
Verification of the spaced-repetition core of VocabMaster Pro
(src/src/VocabMasterPro.jsx), as a shallow embedding in Lean 4.

Modelling conventions:
- JavaScript objects whose fields may be individually absent are modelled as
  structures of `Option` fields; `undefined`/missing becomes `none`, and the
  source's destructuring defaults (`easeFactor = 2.5`, `interval = 0`, ...)
  become `Option.getD`.
- JavaScript numbers are modelled as `ℚ` where the source does fractional
  arithmetic (ease factor, priority score, failure rate), as `ℕ` for the
  non-negative integer counters the app itself writes, and as `ℤ` for the
  recall-quality signal (whose raw value flows through subtractions) and for
  timestamps.
- Dates are modelled as integer millisecond timestamps with an injected `now`;
  `nextReview.setDate(getDate() + interval)` becomes adding
  `interval * 86400000` milliseconds, and `Math.floor(diffMs / 86400000)`
  becomes `Int.fdiv` (floor division).
- The object spread `...word.srs` in `processReview` is a no-op in the model
  because the function overwrites every field the model carries.
-/

/-- Review state attached to a word (`word.srs` in the source); every field may
be absent, matching a plain JS object built up incrementally. -/
structure SRS where
  easeFactor : Option ℚ := none
  interval : Option ℕ := none
  repetitions : Option ℕ := none
  nextReview : Option ℤ := none
  lastReview : Option ℤ := none
  totalReviews : Option ℕ := none
  correctReviews : Option ℕ := none
  wrongReviews : Option ℕ := none
  mastered : Option Bool := none
deriving DecidableEq

/-- A vocabulary item; only the fields the scheduling core reads are carried
(`id`, `lesson`, `srs`); display fields are opaque to the core. -/
structure Word where
  id : ℕ
  lesson : Option String := none
  srs : Option SRS := none
deriving DecidableEq

/-- Milliseconds per day, the divisor used in the source's overdue computation. -/
def msPerDay : ℤ := 86400000

namespace SRSEngine

/-- The fixed interval ladder `[1, 3, 7, 14, 30, 60]` (`SRSEngine.INTERVALS`). -/
def INTERVALS : List ℕ := [1, 3, 7, 14, 30, 60]

/-- Model of `SRSEngine.processReview(word, quality)`: compute the new `srs` state.
The source also destructures an (unused before reassignment) `interval = 0`
default; both branches reassign it, so the model does not bind it.
`now` is the injected wall clock (the source calls `new Date()`). -/
def processReview (word : Word) (quality : ℤ) (now : ℤ) : SRS :=
  let s : SRS := word.srs.getD {}
  let easeFactor0 : ℚ := s.easeFactor.getD 2.5
  let repetitions0 : ℕ := s.repetitions.getD 0
  let ir : ℕ × ℕ :=
    if 3 ≤ quality then
      (if repetitions0 < INTERVALS.length then INTERVALS.getD repetitions0 0 else 60,
       repetitions0 + 1)
    else
      (1, 0)
  let easeFactor1 : ℚ :=
    max 1.3 (easeFactor0 + (0.1 - (5 - (quality : ℚ)) * (0.08 + (5 - (quality : ℚ)) * 0.02)))
  let mastered1 : Bool := decide (INTERVALS.length ≤ ir.2)
  let isCorrect : Bool := decide (3 ≤ quality)
  { easeFactor := some easeFactor1,
    interval := some ir.1,
    repetitions := some ir.2,
    nextReview := some (now + (ir.1 : ℤ) * msPerDay),
    lastReview := some now,
    totalReviews := some (s.totalReviews.getD 0 + 1),
    correctReviews := some (s.correctReviews.getD 0 + (if isCorrect then 1 else 0)),
    wrongReviews := some (s.wrongReviews.getD 0 + (if isCorrect then 0 else 1)),
    mastered := some mastered1 }

end SRSEngine

/-- Read a word's interval with the engine's own defaulting. -/
def intervalOf (w : Word) : ℕ := ((w.srs.getD {}).interval).getD 0

/-- Read a word's repetition count with the engine's own defaulting. -/
def repsOf (w : Word) : ℕ := ((w.srs.getD {}).repetitions).getD 0

/-- Read a word's ease factor with the engine's own defaulting. -/
def easeOf (w : Word) : ℚ := ((w.srs.getD {}).easeFactor).getD 2.5

/-- Read a word's total-review counter with the engine's own defaulting. -/
def totalOf (w : Word) : ℕ := ((w.srs.getD {}).totalReviews).getD 0

/-- Read a word's correct-review counter with the engine's own defaulting. -/
def correctOf (w : Word) : ℕ := ((w.srs.getD {}).correctReviews).getD 0

/-- Read a word's wrong-review counter with the engine's own defaulting. -/
def wrongOf (w : Word) : ℕ := ((w.srs.getD {}).wrongReviews).getD 0

/-- Truthiness of `word.srs?.mastered`. -/
def wordMastered (w : Word) : Bool := ((w.srs.getD {}).mastered).getD false

/-- One review applied to a word: the caller stores the state returned by
`processReview` back into `word.srs` (as every call site in the source does). -/
def reviewStep (w : Word) (p : ℤ × ℤ) : Word :=
  { w with srs := some (SRSEngine.processReview w p.1 p.2) }

/-- The sequence of word states along a list of `(quality, now)` reviews,
starting state included. -/
def reviewTrace (w : Word) (ps : List (ℤ × ℤ)) : List Word :=
  List.scanl reviewStep w ps

/-- Final word state after a list of `(quality, now)` reviews. -/
def applyReviews (w : Word) (ps : List (ℤ × ℤ)) : Word :=
  ps.foldl reviewStep w

/-- Model of `getFailureRate(word)`: `wrongReviews / totalReviews` when `totalReviews > 0`,
else `0`. -/
def getFailureRate (word : Word) : ℚ :=
  let totalReviews := (word.srs.getD {}).totalReviews.getD 0
  let wrongReviews := (word.srs.getD {}).wrongReviews.getD 0
  if 0 < totalReviews then (wrongReviews : ℚ) / (totalReviews : ℚ) else 0

/-- Model of `getReviewPriority(word, isDue)`: the weighted urgency score. The source
reads `Date.now()` for the overdue computation; here `now` is injected. -/
def getReviewPriority (word : Word) (isDue : Bool) (now : ℤ) : ℚ :=
  let reps : ℕ := (word.srs.getD {}).repetitions.getD 0
  let interval : ℕ := (word.srs.getD {}).interval.getD 0
  let failureRate : ℚ := getFailureRate word
  let overdueDays : ℚ :=
    match (word.srs.getD {}).nextReview with
    | none => 0
    | some t => max 0 (((now - t).fdiv msPerDay : ℤ) : ℚ)
  (if isDue then 1000 else 0) + failureRate * 250
    + max 0 (5 - (reps : ℚ)) * 12
    + max 0 (2 - (interval : ℚ)) * 8
    + overdueDays * 2

/-- The bucket key of a word in `interleaveByLesson`: `word.lesson || "general"`
(a missing or empty lesson string is falsy in JS). -/
def buckKey (w : Word) : String :=
  match w.lesson with
  | none => "general"
  | some s => if s = "" then "general" else s

/-- One step of the `Map` construction in `interleaveByLesson`: append the word
to its key's bucket, creating the bucket at the end (insertion order) when the
key is new. -/
def buckInsert (bs : List (String × List Word)) (w : Word) : List (String × List Word) :=
  if bs.any (fun b => b.1 = buckKey w) then
    bs.map (fun b => if b.1 = buckKey w then (b.1, b.2 ++ [w]) else b)
  else
    bs ++ [(buckKey w, [w])]

/-- The buckets `Map` of `interleaveByLesson`, as an insertion-ordered
association list (JS `Map` iterates in insertion order). -/
def bucketsOf (words : List Word) : List (String × List Word) :=
  words.foldl buckInsert []

/-- Total number of items across all buckets. -/
def totalLen (gs : List (List Word)) : ℕ := (gs.map List.length).sum

/-- One iteration of the `while` loop in `interleaveByLesson`: a single
`groups.forEach` pass that pops the head of each non-empty group while fewer
than `limit` items have been collected, returning the items taken in order,
the remaining groups (emptied groups stay in place, as with `Array.shift`),
and the remaining quota. -/
def rrPass : List (List Word) → ℕ → List Word × List (List Word) × ℕ
  | [], rem => ([], [], rem)
  | [] :: gs, rem =>
      let r := rrPass gs rem
      (r.1, [] :: r.2.1, r.2.2)
  | (w :: g) :: gs, 0 => ([], (w :: g) :: gs, 0)
  | (w :: g) :: gs, rem + 1 =>
      let r := rrPass gs rem
      (w :: r.1, g :: r.2.1, r.2.2)

/-- The `while (result.length < limit && groups.some(g => g.length > 0))` loop
of `interleaveByLesson`, with explicit fuel. Each executed pass removes at
least one item, so any fuel of at least the total number of items makes the
fueled loop agree with the source's unbounded loop (`interleaveByLesson`
passes exactly that much fuel). -/
def rrLoopFuel : ℕ → List (List Word) → ℕ → List Word
  | 0, _, _ => []
  | fuel + 1, groups, rem =>
      if rem = 0 ∨ groups.all List.isEmpty then []
      else
        let t := rrPass groups rem
        t.1 ++ rrLoopFuel fuel t.2.1 t.2.2

/-- Model of `interleaveByLesson(words, limit)`: bucket by lesson, then round-robin
across buckets in creation order until `limit` items are collected or all
buckets are exhausted. -/
def interleaveByLesson (words : List Word) (limit : ℕ) : List Word :=
  let groups := (bucketsOf words).map Prod.snd
  rrLoopFuel (totalLen groups) groups limit

/-- Insert into a descending-by-`f` sorted list, after any equal keys: the
stable behaviour of `Array.prototype.sort` with comparator
`(a, b) => f(b) - f(a)`. -/
def insertDesc (f : Word → ℚ) (w : Word) : List Word → List Word
  | [] => [w]
  | x :: xs => if f x < f w then w :: x :: xs else x :: insertDesc f w xs

/-- Stable descending sort by the key `f`, modelling
`.sort((a, b) => f(b) - f(a))`. -/
def sortDesc (f : Word → ℚ) (words : List Word) : List Word :=
  words.foldr (insertDesc f) []

/-- The not-yet-due candidate pool of `selectWordsForReview`:
`allWords.filter(w => !dueIds.has(w.id) && !w.srs?.mastered)`. -/
def notDuePool (allWords dueWords : List Word) : List Word :=
  allWords.filter (fun w => !((dueWords.map Word.id).contains w.id) && !(wordMastered w))

/-- Model of `selectWordsForReview(allWords, dueWords, limit)`: sort the due words by
priority, interleave; if short of `limit`, fill from the prioritized non-due,
non-mastered pool, also interleaved. `now` is the injected wall clock used by
the priority comparator. -/
def selectWordsForReview (allWords dueWords : List Word) (limit : ℕ) (now : ℤ) : List Word :=
  let prioritizedDue := sortDesc (fun w => getReviewPriority w true now) dueWords
  if limit ≤ prioritizedDue.length then
    interleaveByLesson prioritizedDue limit
  else
    let selected := interleaveByLesson prioritizedDue prioritizedDue.length
    let remaining := limit - selected.length
    if 0 < remaining then
      let notDue := sortDesc (fun w => getReviewPriority w false now) (notDuePool allWords dueWords)
      selected ++ interleaveByLesson notDue remaining
    else
      selected

/-- Strict three-way round-robin of equal-length lists; used only to state the
round-robin shape of `interleaveByLesson`'s output. -/
def interleave3 : List Word → List Word → List Word → List Word
  | a :: as, b :: bs, c :: cs => a :: b :: c :: interleave3 as bs cs
  | _, _, _ => []

/-- One buffered review outcome of a learning session (an element of
`sessionReviewsRef.current` / `pendingLearnUpdates.current.reviews`); the
source destructures `hintsUsed` with default `0`. -/
structure Review where
  quality : ℤ
  hintsUsed : ℕ
deriving DecidableEq

/-- The slice of the app's `stats` state that `exitSession` and `updateStreak`
touch. -/
structure LearnStats where
  totalReviews : ℕ
  todayReviews : ℕ
  todayDate : Option String
  xp : ℤ
  streak : ℕ
  lastStudyDate : Option String
  nightStudy : Bool
deriving DecidableEq

/-- Model of `getXPFromHints(isCorrect, hintsUsed)`. -/
def getXPFromHints (isCorrect : Bool) (hintsUsed : ℕ) : ℤ :=
  if !isCorrect then 5
  else if hintsUsed = 0 then 15
  else if hintsUsed = 1 then 10
  else if hintsUsed = 2 then 5
  else if hintsUsed = 3 then 0
  else -5

/-- The per-review XP term of the `allReviews.reduce` in `exitSession`. -/
def reviewXP (r : Review) : ℤ :=
  if 0 < r.hintsUsed then getXPFromHints (decide (3 ≤ r.quality)) r.hintsUsed
  else if 4 ≤ r.quality then 15 else if 3 ≤ r.quality then 10 else 5

/-- Model of `updateStreak()`: the `setStats` updater, with the wall-clock reads
(`new Date().toDateString()`, yesterday's string, the hour) injected. -/
def updateStreak (today yesterday : String) (hour : ℕ) (prev : LearnStats) : LearnStats :=
  if prev.lastStudyDate = some today then
    { prev with todayReviews := prev.todayReviews + 1 }
  else
    { prev with
      streak := if prev.lastStudyDate = some yesterday then prev.streak + 1 else 1,
      lastStudyDate := some today,
      todayReviews := if prev.todayDate = some today then prev.todayReviews + 1 else 1,
      todayDate := some today,
      nightStudy := prev.nightStudy || decide (hour < 5) }

/-- The mutable pieces of the learn screen that `exitSession` reads or writes:
the accumulated batches (`pendingLearnUpdates.current`), the in-progress batch
buffer (`sessionReviewsRef.current`), the current `queue`, the parent `stats`
and `words` states, the screen `mode`, and the Firestore-suppression flag. -/
structure LearnSession where
  pendingReviews : List Review
  pendingQueueWords : List Word
  sessionReviews : List Review
  queue : List Word
  stats : LearnStats
  words : List Word
  mode : Option String
  inLearningSession : Bool
deriving DecidableEq

/-- Model of `exitSession()`: combine accumulated and in-progress reviews, apply the
stats update (streak, counters, XP), merge updated queue words into `words`,
reset `pendingLearnUpdates`, clear the session flag and leave the mode. The
daily-goal toast is a pure UI effect and is not modelled. Note the source
resets `pendingLearnUpdates.current` but never clears
`sessionReviewsRef.current` or `queue`. -/
def exitSession (today yesterday : String) (hour : ℕ) (s : LearnSession) : LearnSession :=
  let allReviews := s.pendingReviews ++ s.sessionReviews
  let allQueueWords :=
    s.pendingQueueWords ++ (if 0 < s.sessionReviews.length then s.queue else [])
  let stats1 :=
    if 0 < allReviews.length then
      let st := updateStreak today yesterday hour s.stats
      let totalXP := allReviews.foldl (fun sum r => sum + reviewXP r) 0
      { st with
        totalReviews := st.totalReviews + allReviews.length,
        todayReviews := (if st.todayDate = some today then st.todayReviews else 0)
          + allReviews.length,
        todayDate := some today,
        xp := st.xp + totalXP }
    else s.stats
  let words1 :=
    if 0 < allQueueWords.length then
      s.words.map (fun w =>
        match allQueueWords.find? (fun q => q.id = w.id) with
        | some q => q
        | none => w)
    else s.words
  { s with
    pendingReviews := [],
    pendingQueueWords := [],
    stats := stats1,
    words := words1,
    inLearningSession := false,
    mode := none }

theorem easeOf_reviewStep (w : Word) (p : ℤ × ℤ) :
    easeOf (reviewStep w p)
      = max 1.3 (easeOf w + (0.1 - (5 - (p.1 : ℚ)) * (0.08 + (5 - (p.1 : ℚ)) * 0.02))) := rfl

theorem easeOf_reviewStep_ge (w : Word) (p : ℤ × ℤ) : (1.3 : ℚ) ≤ easeOf (reviewStep w p) := by
  rw [easeOf_reviewStep]; exact le_max_left _ _

theorem counters_reviewStep (w : Word) (p : ℤ × ℤ) :
    totalOf (reviewStep w p) = totalOf w + 1
    ∧ correctOf (reviewStep w p) + wrongOf (reviewStep w p) = correctOf w + wrongOf w + 1
    ∧ correctOf w ≤ correctOf (reviewStep w p)
    ∧ wrongOf w ≤ wrongOf (reviewStep w p) := by
  by_cases hq : 3 ≤ p.1 <;>
    simp [totalOf, correctOf, wrongOf, reviewStep, SRSEngine.processReview, hq] <;>
    omega

theorem reviewTrace_head (w : Word) (ps : List (ℤ × ℤ)) :
    (reviewTrace w ps).head? = some w := by
  cases ps <;> rfl

theorem reviewTrace_cons (w : Word) (p : ℤ × ℤ) (ps : List (ℤ × ℤ)) :
    reviewTrace w (p :: ps) = w :: reviewTrace (reviewStep w p) ps := rfl

theorem reviewTrace_inv (w : Word) (ps : List (ℤ × ℤ))
    (h : totalOf w = correctOf w + wrongOf w) :
    ∀ x ∈ reviewTrace w ps, totalOf x = correctOf x + wrongOf x := by
  induction ps generalizing w with
  | nil =>
    intro x hx
    simp only [reviewTrace, List.scanl, List.mem_singleton] at hx
    exact hx ▸ h
  | cons p ps ih =>
    intro x hx
    rw [reviewTrace_cons] at hx
    rcases List.mem_cons.mp hx with h1 | hx
    · subst h1; exact h
    · refine ih (reviewStep w p) ?_ x hx
      obtain ⟨h1, h2, _, _⟩ := counters_reviewStep w p
      omega

theorem reviewTrace_chain (w : Word) (ps : List (ℤ × ℤ)) :
    (reviewTrace w ps).Chain'
      (fun a b => totalOf a ≤ totalOf b ∧ correctOf a ≤ correctOf b ∧ wrongOf a ≤ wrongOf b) := by
  induction ps generalizing w with
  | nil => simp [reviewTrace]
  | cons p ps ih =>
    rw [reviewTrace_cons]
    refine List.chain'_cons'.mpr ⟨?_, ih (reviewStep w p)⟩
    intro b hb
    rw [reviewTrace_head] at hb
    obtain rfl : b = reviewStep w p := by simpa using hb.symm
    obtain ⟨h1, h2, h3, h4⟩ := counters_reviewStep w p
    exact ⟨by omega, h3, h4⟩

/-- Claim C1: from a freshly-created review state (empty `srs`), six calls of
`processReview` with quality 4 produce intervals exactly 1, 3, 7, 14, 30, 60 in
order, and the sixth call reaches `repetitions = 6` (the ladder length) and
sets `mastered = true`. -/
theorem c1_ladder_monotonicity :
    ((reviewTrace ⟨0, none, some {}⟩ (List.replicate 6 (4, 0))).tail.map intervalOf
        = [1, 3, 7, 14, 30, 60])
    ∧ repsOf (applyReviews ⟨0, none, some {}⟩ (List.replicate 6 (4, 0))) = 6
    ∧ wordMastered (applyReviews ⟨0, none, some {}⟩ (List.replicate 6 (4, 0))) = true := by
  decide

/-- Claim C2: the returned `repetitions` is 0 exactly when the quality is below
the pass threshold 3, and a failing quality additionally yields `interval = 1`
and `mastered = false`, for every input state. -/
theorem c2_fail_resets (w : Word) (q now : ℤ) :
    ((SRSEngine.processReview w q now).repetitions = some 0 ↔ q < 3)
    ∧ (q < 3 →
        (SRSEngine.processReview w q now).interval = some 1
        ∧ (SRSEngine.processReview w q now).mastered = some false) := by
  by_cases h : 3 ≤ q
  · refine ⟨?_, fun hq => absurd h (by omega)⟩
    simp only [SRSEngine.processReview, if_pos h]
    simp only [Option.some.injEq]
    constructor
    · intro hc; omega
    · intro hc; omega
  · have hq : q < 3 := by omega
    refine ⟨?_, fun _ => ⟨?_, ?_⟩⟩ <;> simp [SRSEngine.processReview, SRSEngine.INTERVALS, h, hq]

/-- Claim C3: starting from a freshly-created word (absent or empty `srs`),
after every review in any sequence the counters satisfy
`totalReviews = correctReviews + wrongReviews`, and all three counters are
non-decreasing from each state to the next. -/
theorem c3_counter_conservation (w0 : Word) (ps : List (ℤ × ℤ))
    (h : w0.srs = none ∨ w0.srs = some {}) :
    (∀ x ∈ reviewTrace w0 ps, totalOf x = correctOf x + wrongOf x)
    ∧ (reviewTrace w0 ps).Chain'
        (fun a b => totalOf a ≤ totalOf b ∧ correctOf a ≤ correctOf b ∧ wrongOf a ≤ wrongOf b) := by
  have h0 : totalOf w0 = correctOf w0 + wrongOf w0 := by
    rcases h with h | h <;> simp [totalOf, correctOf, wrongOf, h]
  exact ⟨reviewTrace_inv w0 ps h0, reviewTrace_chain w0 ps⟩

theorem c3_counter_conservation_witness :
    (∀ x ∈ reviewTrace ⟨0, none, none⟩ [(4, 0), (1, 1)], totalOf x = correctOf x + wrongOf x)
    ∧ (reviewTrace ⟨0, none, none⟩ [(4, 0), (1, 1)]).Chain'
        (fun a b => totalOf a ≤ totalOf b ∧ correctOf a ≤ correctOf b ∧ wrongOf a ≤ wrongOf b) :=
  c3_counter_conservation ⟨0, none, none⟩ [(4, 0), (1, 1)] (Or.inl rfl)

/-- Claim C4: if the input state's ease factor is at least 1.3 then the state
returned by `processReview` has ease factor at least 1.3 for every quality
(the update takes `max 1.3 _`), and hence every sequence of reviews keeps the
ease factor at least 1.3. -/
theorem c4_ease_floor (w : Word) (h : (1.3 : ℚ) ≤ easeOf w) :
    (∀ q now : ℤ, (1.3 : ℚ) ≤ easeOf (reviewStep w (q, now)))
    ∧ ∀ ps : List (ℤ × ℤ), (1.3 : ℚ) ≤ easeOf (applyReviews w ps) := by
  refine ⟨fun q now => easeOf_reviewStep_ge w (q, now), ?_⟩
  intro ps
  induction ps generalizing w with
  | nil => exact h
  | cons p ps ih => exact ih (reviewStep w p) (easeOf_reviewStep_ge w p)

theorem c4_ease_floor_witness :
    (∀ q now : ℤ, (1.3 : ℚ) ≤ easeOf (reviewStep ⟨0, none, none⟩ (q, now)))
    ∧ ∀ ps : List (ℤ × ℤ), (1.3 : ℚ) ≤ easeOf (applyReviews ⟨0, none, none⟩ ps) :=
  c4_ease_floor ⟨0, none, none⟩ (by norm_num [easeOf])

/-- Claim C10: `processReview` is total on a word with no `srs` field at all,
treating it exactly like a word with an empty `srs` object (the defaults
`easeFactor = 2.5`, `interval = 0`, `repetitions = 0` and zero counters apply
in both cases), so the two calls return identical states. -/
theorem c10_absent_srs_equals_empty (i : ℕ) (l : Option String) (q now : ℤ) :
    SRSEngine.processReview ⟨i, l, none⟩ q now
      = SRSEngine.processReview ⟨i, l, some {}⟩ q now := rfl


theorem getFailureRate_nonneg (w : Word) : 0 ≤ getFailureRate w := by
  simp only [getFailureRate]
  split
  · positivity
  · exact le_refl 0

theorem getFailureRate_le_one (w : Word) (h : wrongOf w ≤ totalOf w) :
    getFailureRate w ≤ 1 := by
  simp only [getFailureRate]
  split
  · rename_i ht
    rw [div_le_one (by exact_mod_cast ht)]
    exact_mod_cast h
  · norm_num

theorem getReviewPriority_due_ge (d : Word) (now : ℤ) :
    1000 ≤ getReviewPriority d true now := by
  simp only [getReviewPriority]
  have hfr : 0 ≤ getFailureRate d := getFailureRate_nonneg d
  have hm1 : (0 : ℚ) ≤ max 0 (5 - (((d.srs.getD {}).repetitions.getD 0 : ℕ) : ℚ)) :=
    le_max_left _ _
  have hm2 : (0 : ℚ) ≤ max 0 (2 - (((d.srs.getD {}).interval.getD 0 : ℕ) : ℚ)) :=
    le_max_left _ _
  rcases hnr : (d.srs.getD {}).nextReview with _ | t
  · simp only [hnr, if_true]
    norm_num
    linarith
  · simp only [hnr, if_true]
    have hod : (0 : ℚ) ≤ max 0 (((now - t).fdiv msPerDay : ℤ) : ℚ) := le_max_left _ _
    norm_num
    linarith

theorem getReviewPriority_notdue_lt (n : Word) (now t : ℤ)
    (hn : (n.srs.getD {}).nextReview = some t) (hfut : now < t)
    (hw : wrongOf n ≤ totalOf n) :
    getReviewPriority n false now < 1000 := by
  simp only [getReviewPriority]
  have hfr1 : getFailureRate n ≤ 1 := getFailureRate_le_one n hw
  have hfr0 : 0 ≤ getFailureRate n := getFailureRate_nonneg n
  have hm1 : max 0 (5 - (((n.srs.getD {}).repetitions.getD 0 : ℕ) : ℚ)) ≤ 5 := by
    apply max_le (by norm_num)
    have h0 : (0 : ℚ) ≤ (((n.srs.getD {}).repetitions.getD 0 : ℕ) : ℚ) := by positivity
    linarith
  have hm2 : max 0 (2 - (((n.srs.getD {}).interval.getD 0 : ℕ) : ℚ)) ≤ 2 := by
    apply max_le (by norm_num)
    have h0 : (0 : ℚ) ≤ (((n.srs.getD {}).interval.getD 0 : ℕ) : ℚ) := by positivity
    linarith
  have hdiv : (now - t).fdiv msPerDay < 0 := by
    rw [Int.fdiv_eq_ediv _ (by norm_num [msPerDay])]
    exact Int.ediv_neg' (by omega) (by norm_num [msPerDay])
  have hod : max 0 (((now - t).fdiv msPerDay : ℤ) : ℚ) = 0 := by
    apply max_eq_left
    exact_mod_cast le_of_lt hdiv
  simp only [hn, hod]
  norm_num
  linarith

/-- Claim C7: due-ness dominates the priority score: a due item always
outranks a non-due, non-mastered item whose `nextReview` lies strictly in the
future (so its overdue term is zero) and whose counters are consistent
(`wrongReviews ≤ totalReviews`, so its failure rate is at most 1). -/
theorem c7_dueness_dominates (d n : Word) (now t : ℤ)
    (hn : (n.srs.getD {}).nextReview = some t) (hfut : now < t)
    (hw : wrongOf n ≤ totalOf n) :
    getReviewPriority n false now < getReviewPriority d true now :=
  lt_of_lt_of_le (getReviewPriority_notdue_lt n now t hn hfut hw)
    (getReviewPriority_due_ge d now)

theorem c7_dueness_dominates_witness :
    getReviewPriority ⟨1, none, some ⟨none, none, none, some 5, none, some 2, none, some 1, none⟩⟩ false 0
      < getReviewPriority ⟨0, none, none⟩ true 0 :=
  c7_dueness_dominates ⟨0, none, none⟩
    ⟨1, none, some ⟨none, none, none, some 5, none, some 2, none, some 1, none⟩⟩
    0 5 rfl (by norm_num) (by norm_num [wrongOf, totalOf])

theorem totalLen_nil : totalLen [] = 0 := rfl

theorem totalLen_cons (g : List Word) (gs : List (List Word)) :
    totalLen (g :: gs) = g.length + totalLen gs := by
  simp [totalLen]

theorem all_isEmpty_iff_totalLen (gs : List (List Word)) :
    gs.all List.isEmpty = true ↔ totalLen gs = 0 := by
  induction gs with
  | nil => simp [totalLen]
  | cons g gs ih =>
    cases g <;> simp [totalLen_cons, ih, List.isEmpty]

theorem rrPass_rem (gs : List (List Word)) :
    ∀ rem, (rrPass gs rem).1.length + (rrPass gs rem).2.2 = rem := by
  induction gs with
  | nil => intro rem; simp [rrPass]
  | cons g gs ih =>
    intro rem
    cases g with
    | nil => simpa [rrPass] using ih rem
    | cons w g =>
      cases rem with
      | zero => simp [rrPass]
      | succ rem =>
        have := ih rem
        simp only [rrPass, List.length_cons]
        omega

theorem rrPass_total (gs : List (List Word)) :
    ∀ rem, (rrPass gs rem).1.length + totalLen (rrPass gs rem).2.1 = totalLen gs := by
  induction gs with
  | nil => intro rem; simp [rrPass, totalLen]
  | cons g gs ih =>
    intro rem
    cases g with
    | nil =>
      have := ih rem
      simp only [rrPass, totalLen_cons, List.length_nil]
      omega
    | cons w g =>
      cases rem with
      | zero => simp [rrPass]
      | succ rem =>
        have := ih rem
        simp only [rrPass, totalLen_cons, List.length_cons]
        omega

theorem rrPass_pos (gs : List (List Word)) :
    ∀ rem, 0 < rem → totalLen gs ≠ 0 → 0 < (rrPass gs rem).1.length := by
  induction gs with
  | nil => intro rem _ h; simp [totalLen] at h
  | cons g gs ih =>
    intro rem hr h
    cases g with
    | nil =>
      rw [totalLen_cons] at h
      simpa [rrPass] using ih rem hr (by simpa using h)
    | cons w g =>
      cases rem with
      | zero => omega
      | succ rem => simp [rrPass]

theorem rrLoopFuel_length :
    ∀ (fuel : ℕ) (gs : List (List Word)) (rem : ℕ), totalLen gs ≤ fuel →
      (rrLoopFuel fuel gs rem).length = min rem (totalLen gs) := by
  intro fuel
  induction fuel with
  | zero =>
    intro gs rem h
    simp only [rrLoopFuel, List.length_nil]
    omega
  | succ fuel ih =>
    intro gs rem h
    by_cases hc : rem = 0 ∨ gs.all List.isEmpty
    · rw [rrLoopFuel, if_pos hc]
      rcases hc with hc | hc
      · simp [hc]
      · rw [all_isEmpty_iff_totalLen] at hc
        simp [hc]
    · rw [rrLoopFuel, if_neg hc]
      push_neg at hc
      obtain ⟨hr, he⟩ := hc
      have ht : totalLen gs ≠ 0 := by
        intro h0
        exact he ((all_isEmpty_iff_totalLen gs).mpr h0)
      have hp := rrPass_pos gs rem (by omega) ht
      have h1 := rrPass_rem gs rem
      have h2 := rrPass_total gs rem
      rw [List.length_append, ih (rrPass gs rem).2.1 (rrPass gs rem).2.2 (by omega)]
      omega

theorem update_totalLen (k : String) (w : Word) :
    ∀ (bs : List (String × List Word)), (bs.map Prod.fst).Nodup → (∃ b ∈ bs, b.1 = k) →
      totalLen ((bs.map (fun b => if b.1 = k then (b.1, b.2 ++ [w]) else b)).map Prod.snd)
        = totalLen (bs.map Prod.snd) + 1 := by
  intro bs
  induction bs with
  | nil => intro _ h; simp at h
  | cons b bs ih =>
    intro hnd hex
    rw [List.map_cons, List.nodup_cons] at hnd
    by_cases hb : b.1 = k
    · have htail : bs.map (fun b' => if b'.1 = k then (b'.1, b'.2 ++ [w]) else b') = bs := by
        conv_rhs => rw [← List.map_id bs]
        apply List.map_congr_left
        intro x hx
        have hxk : x.1 ≠ k := by
          intro hk
          exact hnd.1 (hb ▸ hk ▸ List.mem_map_of_mem Prod.fst hx)
        simp [hxk]
      simp [hb, htail, totalLen_cons]
      try omega
    · obtain ⟨b', hb', hk'⟩ := hex
      rcases List.mem_cons.mp hb' with rfl | hb'
      · exact absurd hk' hb
      · have := ih hnd.2 ⟨b', hb', hk'⟩
        simp only [List.map_cons, if_neg hb, totalLen_cons]
        omega

theorem buckInsert_fst (bs : List (String × List Word)) (w : Word) :
    (buckInsert bs w).map Prod.fst
      = if bs.any (fun b => b.1 = buckKey w) then bs.map Prod.fst
        else bs.map Prod.fst ++ [buckKey w] := by
  simp only [buckInsert]
  split
  · rw [List.map_map]
    apply List.map_congr_left
    intro b _
    by_cases hb : b.1 = buckKey w <;> simp [hb]
  · simp

theorem buckInsert_nodup (bs : List (String × List Word)) (w : Word)
    (h : (bs.map Prod.fst).Nodup) : ((buckInsert bs w).map Prod.fst).Nodup := by
  rw [buckInsert_fst]
  split
  · exact h
  · rename_i hany
    have hkey : buckKey w ∉ bs.map Prod.fst := by
      intro hmem
      apply hany
      rw [List.any_eq_true]
      obtain ⟨b, hb, hfst⟩ := List.mem_map.mp hmem
      exact ⟨b, hb, by simp [hfst]⟩
    simp [List.nodup_append, h, hkey]

theorem buckInsert_totalLen (bs : List (String × List Word)) (w : Word)
    (h : (bs.map Prod.fst).Nodup) :
    totalLen ((buckInsert bs w).map Prod.snd) = totalLen (bs.map Prod.snd) + 1 := by
  simp only [buckInsert]
  split
  · rename_i hany
    rw [List.any_eq_true] at hany
    obtain ⟨b, hb, hk⟩ := hany
    exact update_totalLen (buckKey w) w bs h ⟨b, hb, by simpa using hk⟩
  · simp [totalLen]

theorem bucketsOf_invariant :
    ∀ (ws : List Word) (bs : List (String × List Word)), (bs.map Prod.fst).Nodup →
      ((List.foldl buckInsert bs ws).map Prod.fst).Nodup
      ∧ totalLen ((List.foldl buckInsert bs ws).map Prod.snd)
          = totalLen (bs.map Prod.snd) + ws.length := by
  intro ws
  induction ws with
  | nil => intro bs h; simp [h]
  | cons w ws ih =>
    intro bs h
    rw [List.foldl_cons]
    obtain ⟨h1, h2⟩ := ih (buckInsert bs w) (buckInsert_nodup bs w h)
    refine ⟨h1, ?_⟩
    rw [h2, buckInsert_totalLen bs w h, List.length_cons]
    omega

theorem bucketsOf_totalLen (ws : List Word) :
    totalLen ((bucketsOf ws).map Prod.snd) = ws.length := by
  have := (bucketsOf_invariant ws [] (by simp)).2
  simpa [bucketsOf, totalLen] using this

theorem interleaveByLesson_length (ws : List Word) (limit : ℕ) :
    (interleaveByLesson ws limit).length = min limit ws.length := by
  unfold interleaveByLesson
  rw [rrLoopFuel_length _ _ _ (le_refl _), bucketsOf_totalLen]

theorem insertDesc_length (f : Word → ℚ) (w : Word) :
    ∀ l : List Word, (insertDesc f w l).length = l.length + 1 := by
  intro l
  induction l with
  | nil => rfl
  | cons x xs ih =>
    simp only [insertDesc]
    split <;> simp [ih]

theorem sortDesc_length (f : Word → ℚ) (ws : List Word) :
    (sortDesc f ws).length = ws.length := by
  induction ws with
  | nil => rfl
  | cons w ws ih =>
    simp only [sortDesc, List.foldr_cons] at ih ⊢
    rw [insertDesc_length, ih]
    simp

theorem selectWordsForReview_eq (allWords dueWords : List Word) (limit : ℕ) (now : ℤ) :
    selectWordsForReview allWords dueWords limit now
      = if limit ≤ dueWords.length then
          interleaveByLesson (sortDesc (fun w => getReviewPriority w true now) dueWords) limit
        else
          interleaveByLesson (sortDesc (fun w => getReviewPriority w true now) dueWords)
              dueWords.length
            ++ interleaveByLesson
                (sortDesc (fun w => getReviewPriority w false now) (notDuePool allWords dueWords))
                (limit - dueWords.length) := by
  simp only [selectWordsForReview, sortDesc_length]
  by_cases hlim : limit ≤ dueWords.length
  · rw [if_pos hlim, if_pos hlim]
  · rw [if_neg hlim, if_neg hlim]
    have hsel : (interleaveByLesson
        (sortDesc (fun w => getReviewPriority w true now) dueWords) dueWords.length).length
          = dueWords.length := by
      rw [interleaveByLesson_length, sortDesc_length, min_self]
    rw [hsel, if_pos (by omega)]

/-- Claim C5: the session selection returns at most `limit` words; exactly
`limit` whenever the due words together with the not-yet-due, non-mastered
pool number at least `limit`; and an empty collection yields the empty list
rather than an error. -/
theorem c5_selection_bound (allWords dueWords : List Word) (limit : ℕ) (now : ℤ)
    (hsub : ∀ w ∈ dueWords, w ∈ allWords) :
    (selectWordsForReview allWords dueWords limit now).length ≤ limit
    ∧ (limit ≤ dueWords.length + (notDuePool allWords dueWords).length →
        (selectWordsForReview allWords dueWords limit now).length = limit)
    ∧ (allWords = [] → selectWordsForReview allWords dueWords limit now = []) := by
  rw [selectWordsForReview_eq]
  by_cases hlim : limit ≤ dueWords.length
  · rw [if_pos hlim]
    have hlen : (interleaveByLesson
        (sortDesc (fun w => getReviewPriority w true now) dueWords) limit).length
          = min limit dueWords.length := by
      rw [interleaveByLesson_length, sortDesc_length]
    refine ⟨by omega, fun _ => by omega, fun ha => ?_⟩
    have hd : dueWords = [] := by
      cases dueWords with
      | nil => rfl
      | cons w ws => exact absurd (ha ▸ hsub w (List.mem_cons_self w ws)) (List.not_mem_nil w)
    rw [← List.length_eq_zero] at hd ⊢
    omega
  · rw [if_neg hlim]
    have h1 : (interleaveByLesson
        (sortDesc (fun w => getReviewPriority w true now) dueWords) dueWords.length).length
          = dueWords.length := by
      rw [interleaveByLesson_length, sortDesc_length, min_self]
    have h2 : (interleaveByLesson
        (sortDesc (fun w => getReviewPriority w false now) (notDuePool allWords dueWords))
        (limit - dueWords.length)).length
          = min (limit - dueWords.length) (notDuePool allWords dueWords).length := by
      rw [interleaveByLesson_length, sortDesc_length]
    refine ⟨?_, fun he => ?_, fun ha => ?_⟩
    · rw [List.length_append]; omega
    · rw [List.length_append]; omega
    · have hd : dueWords = [] := by
        cases dueWords with
        | nil => rfl
        | cons w ws => exact absurd (ha ▸ hsub w (List.mem_cons_self w ws)) (List.not_mem_nil w)
      have hnd : notDuePool allWords dueWords = [] := by rw [ha]; rfl
      rw [← List.length_eq_zero] at hd hnd ⊢
      rw [List.length_append]
      omega

theorem c5_selection_bound_witness :
    ((selectWordsForReview [⟨0, none, none⟩] [⟨0, none, none⟩] 1 0).length ≤ 1
    ∧ (1 ≤ ([⟨0, none, none⟩] : List Word).length
          + (notDuePool [⟨0, none, none⟩] [⟨0, none, none⟩]).length →
        (selectWordsForReview [⟨0, none, none⟩] [⟨0, none, none⟩] 1 0).length = 1)
    ∧ (([⟨0, none, none⟩] : List Word) = [] →
        selectWordsForReview [⟨0, none, none⟩] [⟨0, none, none⟩] 1 0 = [])) :=
  c5_selection_bound [⟨0, none, none⟩] [⟨0, none, none⟩] 1 0
    (fun _ hw => hw)

theorem buckKey_of_lesson (w : Word) (k : String) (h1 : w.lesson = some k) (h2 : k ≠ "") :
    buckKey w = k := by
  simp [buckKey, h1, h2]

theorem buckFold_extend (g : List Word) :
    ∀ (bs1 : List (String × List Word)) (k : String) (acc : List Word),
      (∀ w ∈ g, buckKey w = k) → bs1.any (fun b => b.1 = k) = false →
      List.foldl buckInsert (bs1 ++ [(k, acc)]) g = bs1 ++ [(k, acc ++ g)] := by
  induction g with
  | nil => intro bs1 k acc _ _; simp
  | cons w g ih =>
    intro bs1 k acc hk h1
    have hw : buckKey w = k := hk w (List.mem_cons_self w g)
    have hany : (bs1 ++ [(k, acc)]).any (fun b => b.1 = buckKey w) = true := by
      rw [List.any_append]
      simp [hw]
    have hmap : (bs1 ++ [(k, acc)]).map (fun b => if b.1 = buckKey w then (b.1, b.2 ++ [w]) else b)
        = bs1 ++ [(k, acc ++ [w])] := by
      rw [List.map_append]
      congr 1
      · conv_rhs => rw [← List.map_id bs1]
        apply List.map_congr_left
        intro b hb
        have hbk : ¬ b.1 = buckKey w := by
          intro hbad
          have : bs1.any (fun b => b.1 = k) = true := by
            rw [List.any_eq_true]
            exact ⟨b, hb, by simp [hbad, hw]⟩
          rw [h1] at this
          exact Bool.false_ne_true this
        simp [hbk]
      · simp [hw]
    rw [List.foldl_cons]
    rw [show buckInsert (bs1 ++ [(k, acc)]) w = bs1 ++ [(k, acc ++ [w])] by
      rw [buckInsert, if_pos hany, hmap]]
    rw [ih bs1 k (acc ++ [w]) (fun x hx => hk x (List.mem_cons_of_mem w hx)) h1]
    simp

theorem buckFold_fresh (g : List Word) (bs : List (String × List Word)) (k : String)
    (hk : ∀ w ∈ g, buckKey w = k) (h1 : bs.any (fun b => b.1 = k) = false) (hne : g ≠ []) :
    List.foldl buckInsert bs g = bs ++ [(k, g)] := by
  cases g with
  | nil => exact absurd rfl hne
  | cons w g =>
    have hw : buckKey w = k := hk w (List.mem_cons_self w g)
    rw [List.foldl_cons]
    rw [show buckInsert bs w = bs ++ [(k, [w])] by
      rw [buckInsert, if_neg (by rw [hw, h1]; exact Bool.false_ne_true), hw]]
    rw [buckFold_extend g bs k [w] (fun x hx => hk x (List.mem_cons_of_mem w hx)) h1]
    simp

theorem rrLoopFuel_zero (fuel : ℕ) (gs : List (List Word)) :
    rrLoopFuel fuel gs 0 = [] := by
  cases fuel <;> simp [rrLoopFuel]

theorem rrLoopFuel_round (fuel r : ℕ) (x y z : Word) (t1 t2 t3 : List Word) :
    rrLoopFuel (fuel + 1) [x :: t1, y :: t2, z :: t3] (r + 1 + 1 + 1)
      = x :: y :: z :: rrLoopFuel fuel [t1, t2, t3] r := rfl

/-- A group of ten words sharing one lesson key, used to instantiate the
interleaving fairness claim. -/
def lessonRun (k : String) : List Word :=
  (List.range 10).map (fun i => ⟨i, some k, none⟩)

/-- Claim C6: for items drawn from three groups of ten (constant, distinct,
non-empty lesson keys) and `limit = 9`, `interleaveByLesson` returns the first
three items of each group, round-robin across the buckets in creation order
(so exactly 3 items per group, each group's items in their incoming relative
order); being a function of its input, the result is deterministic. -/
theorem c6_interleaving_fairness (k1 k2 k3 : String) (g1 g2 g3 : List Word)
    (hk1 : k1 ≠ "") (hk2 : k2 ≠ "") (hk3 : k3 ≠ "")
    (h12 : k1 ≠ k2) (h13 : k1 ≠ k3) (h23 : k2 ≠ k3)
    (hl1 : g1.length = 10) (hl2 : g2.length = 10) (hl3 : g3.length = 10)
    (hg1 : ∀ w ∈ g1, w.lesson = some k1) (hg2 : ∀ w ∈ g2, w.lesson = some k2)
    (hg3 : ∀ w ∈ g3, w.lesson = some k3) :
    interleaveByLesson (g1 ++ g2 ++ g3) 9
        = interleave3 (g1.take 3) (g2.take 3) (g3.take 3)
    ∧ ((interleaveByLesson (g1 ++ g2 ++ g3) 9).filter (fun w => w.lesson == some k1)).length = 3
    ∧ ((interleaveByLesson (g1 ++ g2 ++ g3) 9).filter (fun w => w.lesson == some k2)).length = 3
    ∧ ((interleaveByLesson (g1 ++ g2 ++ g3) 9).filter (fun w => w.lesson == some k3)).length = 3 := by
  have hb : bucketsOf (g1 ++ g2 ++ g3) = [(k1, g1), (k2, g2), (k3, g3)] := by
    unfold bucketsOf
    rw [List.foldl_append, List.foldl_append]
    rw [buckFold_fresh g1 [] k1 (fun w hw => buckKey_of_lesson w k1 (hg1 w hw) hk1)
      (by simp) (by intro h; rw [h] at hl1; simp at hl1)]
    simp only [List.nil_append]
    rw [buckFold_fresh g2 [(k1, g1)] k2 (fun w hw => buckKey_of_lesson w k2 (hg2 w hw) hk2)
      (by simp [h12]) (by intro h; rw [h] at hl2; simp at hl2)]
    simp only [List.cons_append, List.nil_append]
    rw [buckFold_fresh g3 [(k1, g1), (k2, g2)] k3
      (fun w hw => buckKey_of_lesson w k3 (hg3 w hw) hk3)
      (by simp [h13, h23]) (by intro h; rw [h] at hl3; simp at hl3)]
    simp
  obtain ⟨a1, a2, a3, r1, rfl⟩ : ∃ x y z t, g1 = x :: y :: z :: t := by
    cases g1 with
    | nil => simp at hl1
    | cons x g => cases g with
      | nil => simp at hl1
      | cons y g => cases g with
        | nil => simp at hl1
        | cons z t => exact ⟨x, y, z, t, rfl⟩
  obtain ⟨b1, b2, b3, r2, rfl⟩ : ∃ x y z t, g2 = x :: y :: z :: t := by
    cases g2 with
    | nil => simp at hl2
    | cons x g => cases g with
      | nil => simp at hl2
      | cons y g => cases g with
        | nil => simp at hl2
        | cons z t => exact ⟨x, y, z, t, rfl⟩
  obtain ⟨c1, c2, c3, r3, rfl⟩ : ∃ x y z t, g3 = x :: y :: z :: t := by
    cases g3 with
    | nil => simp at hl3
    | cons x g => cases g with
      | nil => simp at hl3
      | cons y g => cases g with
        | nil => simp at hl3
        | cons z t => exact ⟨x, y, z, t, rfl⟩
  have hr1 : r1.length = 7 := by simp at hl1; omega
  have hr2 : r2.length = 7 := by simp at hl2; omega
  have hr3 : r3.length = 7 := by simp at hl3; omega
  have hEq : interleaveByLesson
      ((a1 :: a2 :: a3 :: r1) ++ (b1 :: b2 :: b3 :: r2) ++ (c1 :: c2 :: c3 :: r3)) 9
        = interleave3 ((a1 :: a2 :: a3 :: r1).take 3) ((b1 :: b2 :: b3 :: r2).take 3)
            ((c1 :: c2 :: c3 :: r3).take 3) := by
    unfold interleaveByLesson
    rw [hb]
    simp only [List.map_cons, List.map_nil]
    have htl : totalLen
        [a1 :: a2 :: a3 :: r1, b1 :: b2 :: b3 :: r2, c1 :: c2 :: c3 :: r3] = 30 := by
      simp [totalLen, hr1, hr2, hr3]
    rw [htl]
    rw [show (30 : ℕ) = 29 + 1 from rfl, show (9 : ℕ) = 6 + 1 + 1 + 1 from rfl,
      rrLoopFuel_round]
    rw [show (29 : ℕ) = 28 + 1 from rfl, show (6 : ℕ) = 3 + 1 + 1 + 1 from rfl,
      rrLoopFuel_round]
    rw [show (28 : ℕ) = 27 + 1 from rfl, show (3 : ℕ) = 0 + 1 + 1 + 1 from rfl,
      rrLoopFuel_round]
    rw [rrLoopFuel_zero]
    simp [interleave3]
  have ha1 : a1.lesson = some k1 := hg1 a1 (by simp)
  have ha2 : a2.lesson = some k1 := hg1 a2 (by simp)
  have ha3 : a3.lesson = some k1 := hg1 a3 (by simp)
  have hb1 : b1.lesson = some k2 := hg2 b1 (by simp)
  have hb2 : b2.lesson = some k2 := hg2 b2 (by simp)
  have hb3 : b3.lesson = some k2 := hg2 b3 (by simp)
  have hc1 : c1.lesson = some k3 := hg3 c1 (by simp)
  have hc2 : c2.lesson = some k3 := hg3 c2 (by simp)
  have hc3 : c3.lesson = some k3 := hg3 c3 (by simp)
  have hlist : interleave3 ((a1 :: a2 :: a3 :: r1).take 3) ((b1 :: b2 :: b3 :: r2).take 3)
      ((c1 :: c2 :: c3 :: r3).take 3) = [a1, b1, c1, a2, b2, c2, a3, b3, c3] := by
    simp [interleave3]
  have e12 : (k1 == k2) = false := beq_eq_false_iff_ne.mpr h12
  have e21 : (k2 == k1) = false := beq_eq_false_iff_ne.mpr (Ne.symm h12)
  have e13 : (k1 == k3) = false := beq_eq_false_iff_ne.mpr h13
  have e31 : (k3 == k1) = false := beq_eq_false_iff_ne.mpr (Ne.symm h13)
  have e23 : (k2 == k3) = false := beq_eq_false_iff_ne.mpr h23
  have e32 : (k3 == k2) = false := beq_eq_false_iff_ne.mpr (Ne.symm h23)
  refine ⟨hEq, ?_, ?_, ?_⟩ <;>
    rw [hEq, hlist] <;>
    simp [List.filter, ha1, ha2, ha3, hb1, hb2, hb3, hc1, hc2, hc3,
      e12, e21, e13, e31, e23, e32]

theorem c6_interleaving_fairness_witness :
    (interleaveByLesson (lessonRun "A" ++ lessonRun "B" ++ lessonRun "C") 9
        = interleave3 ((lessonRun "A").take 3) ((lessonRun "B").take 3) ((lessonRun "C").take 3))
    ∧ ((interleaveByLesson (lessonRun "A" ++ lessonRun "B" ++ lessonRun "C") 9).filter
        (fun w => w.lesson == some "A")).length = 3
    ∧ ((interleaveByLesson (lessonRun "A" ++ lessonRun "B" ++ lessonRun "C") 9).filter
        (fun w => w.lesson == some "B")).length = 3
    ∧ ((interleaveByLesson (lessonRun "A" ++ lessonRun "B" ++ lessonRun "C") 9).filter
        (fun w => w.lesson == some "C")).length = 3 :=
  c6_interleaving_fairness "A" "B" "C" (lessonRun "A") (lessonRun "B") (lessonRun "C")
    (by decide) (by decide) (by decide) (by decide) (by decide) (by decide)
    (by decide) (by decide) (by decide)
    (by decide) (by decide) (by decide)

theorem updateStreak_totalReviews (t y : String) (h : ℕ) (st : LearnStats) :
    (updateStreak t y h st).totalReviews = st.totalReviews := by
  simp only [updateStreak]
  split <;> rfl

/-- Claim C9 counterexample: with one review still buffered in the in-batch
buffer, a second `exitSession` call is not rejected: it runs normally and
re-applies the buffered review, bumping `stats.totalReviews` from 1 to 2
(the source resets `pendingLearnUpdates` but never clears
`sessionReviewsRef`), contradicting the claim that the second call signals a
state-misuse error and does not re-apply updates. -/
theorem c9_counterexample :
    (exitSession "d2" "d1" 12
        (exitSession "d2" "d1" 12
          ⟨[], [], [⟨4, 0⟩], [], ⟨0, 0, none, 0, 0, none, false⟩, [], some "flash",
            true⟩)).stats.totalReviews = 2
    ∧ (exitSession "d2" "d1" 12
        ⟨[], [], [⟨4, 0⟩], [], ⟨0, 0, none, 0, 0, none, false⟩, [], some "flash",
          true⟩).stats.totalReviews = 1 := by
  decide

/-- Claim C9 as amended: a second `exitSession` without an intervening session
start is not rejected and is not a no-op: it completes normally (mode cleared,
no error path exists) and re-applies whatever the in-batch buffer still holds,
adding `sessionReviews.length` to `stats.totalReviews` a second time. -/
theorem c9_amended_double_flush (today yesterday : String) (hour : ℕ) (s : LearnSession)
    (hne : s.sessionReviews ≠ []) :
    (exitSession today yesterday hour (exitSession today yesterday hour s)).stats.totalReviews
      = (exitSession today yesterday hour s).stats.totalReviews + s.sessionReviews.length
    ∧ (exitSession today yesterday hour (exitSession today yesterday hour s)).mode = none := by
  obtain ⟨pr, pq, sr, q, st, wd, m, fl⟩ := s
  have hpos : 0 < sr.length := List.length_pos.mpr hne
  refine ⟨?_, rfl⟩
  simp only [exitSession, List.nil_append]
  rw [if_pos hpos]
  simp [updateStreak_totalReviews]

theorem c9_amended_double_flush_witness :
    (exitSession "d2" "d1" 12
        (exitSession "d2" "d1" 12
          ⟨[], [], [⟨4, 0⟩], [], ⟨0, 0, none, 0, 0, none, false⟩, [], some "flash",
            true⟩)).stats.totalReviews
      = (exitSession "d2" "d1" 12
          ⟨[], [], [⟨4, 0⟩], [], ⟨0, 0, none, 0, 0, none, false⟩, [], some "flash",
            true⟩).stats.totalReviews + ([⟨4, 0⟩] : List Review).length
    ∧ (exitSession "d2" "d1" 12
        (exitSession "d2" "d1" 12
          ⟨[], [], [⟨4, 0⟩], [], ⟨0, 0, none, 0, 0, none, false⟩, [], some "flash",
            true⟩)).mode = none :=
  c9_amended_double_flush "d2" "d1" 12
    ⟨[], [], [⟨4, 0⟩], [], ⟨0, 0, none, 0, 0, none, false⟩, [], some "flash", true⟩
    (by decide)

/-- Claim C8 counterexample: `processReview` does not fail fast on an
out-of-range quality: at quality 6 it silently computes a complete new state
(including an ease-factor bump of `+0.16`, larger than quality 5 would give,
so the quality is not clamped either). -/
theorem c8_counterexample :
    (SRSEngine.processReview ⟨0, none, some {}⟩ 6 0).repetitions = some 1
    ∧ (SRSEngine.processReview ⟨0, none, some {}⟩ 6 0).interval = some 1
    ∧ (SRSEngine.processReview ⟨0, none, some {}⟩ 6 0).nextReview = some 86400000
    ∧ (SRSEngine.processReview ⟨0, none, some {}⟩ 6 0).totalReviews = some 1
    ∧ (SRSEngine.processReview ⟨0, none, some {}⟩ 6 0).correctReviews = some 1
    ∧ (SRSEngine.processReview ⟨0, none, some {}⟩ 6 0).wrongReviews = some 0
    ∧ (SRSEngine.processReview ⟨0, none, some {}⟩ 6 0).mastered = some false
    ∧ (SRSEngine.processReview ⟨0, none, some {}⟩ 6 0).easeFactor = some (133 / 50) := by
  refine ⟨by decide, by decide, by decide, by decide, by decide, by decide, by decide, ?_⟩
  show some (max 1.3 (2.5 + (0.1 - (5 - ((6 : ℤ) : ℚ)) * (0.08 + (5 - ((6 : ℤ) : ℚ)) * 0.02))))
      = some (133 / 50)
  rw [show (2.5 + (0.1 - (5 - ((6 : ℤ) : ℚ)) * (0.08 + (5 - ((6 : ℤ) : ℚ)) * 0.02)))
      = 133 / 50 by norm_num]
  rw [max_eq_right (by norm_num)]

/-- Claim C8 as amended: `processReview` performs no validation of `quality`:
a value above 5 is processed silently through the correct-answer branch (all
schedule and counter fields agree with a quality-5 review) and a negative
value through the incorrect branch (fields agree with quality 0), while the
ease-factor update uses the raw out-of-range value, so nothing is rejected
and nothing is clamped. -/
theorem c8_amended_no_validation (w : Word) (now q : ℤ) (hq : q < 0 ∨ 5 < q) :
    ((SRSEngine.processReview w q now).repetitions
        = (SRSEngine.processReview w (if 5 < q then 5 else 0) now).repetitions)
    ∧ ((SRSEngine.processReview w q now).interval
        = (SRSEngine.processReview w (if 5 < q then 5 else 0) now).interval)
    ∧ ((SRSEngine.processReview w q now).mastered
        = (SRSEngine.processReview w (if 5 < q then 5 else 0) now).mastered)
    ∧ ((SRSEngine.processReview w q now).correctReviews
        = (SRSEngine.processReview w (if 5 < q then 5 else 0) now).correctReviews)
    ∧ ((SRSEngine.processReview w q now).wrongReviews
        = (SRSEngine.processReview w (if 5 < q then 5 else 0) now).wrongReviews)
    ∧ (SRSEngine.processReview w q now).easeFactor
        = some (max 1.3 (easeOf w + (0.1 - (5 - (q : ℚ)) * (0.08 + (5 - (q : ℚ)) * 0.02)))) := by
  rcases hq with hq | hq
  · have h5 : ¬ (5 : ℤ) < q := by omega
    have h3 : ¬ (3 : ℤ) ≤ q := by omega
    rw [if_neg h5]
    refine ⟨?_, ?_, ?_, ?_, ?_, ?_⟩ <;>
      simp [SRSEngine.processReview, easeOf, h3]
  · have h3 : (3 : ℤ) ≤ q := by omega
    rw [if_pos hq]
    refine ⟨?_, ?_, ?_, ?_, ?_, ?_⟩ <;>
      simp [SRSEngine.processReview, easeOf, h3]

theorem c8_amended_no_validation_witness :
    ((SRSEngine.processReview ⟨0, none, none⟩ 6 0).repetitions
        = (SRSEngine.processReview ⟨0, none, none⟩ (if (5 : ℤ) < 6 then 5 else 0) 0).repetitions)
    ∧ ((SRSEngine.processReview ⟨0, none, none⟩ 6 0).interval
        = (SRSEngine.processReview ⟨0, none, none⟩ (if (5 : ℤ) < 6 then 5 else 0) 0).interval)
    ∧ ((SRSEngine.processReview ⟨0, none, none⟩ 6 0).mastered
        = (SRSEngine.processReview ⟨0, none, none⟩ (if (5 : ℤ) < 6 then 5 else 0) 0).mastered)
    ∧ ((SRSEngine.processReview ⟨0, none, none⟩ 6 0).correctReviews
        = (SRSEngine.processReview ⟨0, none, none⟩
            (if (5 : ℤ) < 6 then 5 else 0) 0).correctReviews)
    ∧ ((SRSEngine.processReview ⟨0, none, none⟩ 6 0).wrongReviews
        = (SRSEngine.processReview ⟨0, none, none⟩
            (if (5 : ℤ) < 6 then 5 else 0) 0).wrongReviews)
    ∧ (SRSEngine.processReview ⟨0, none, none⟩ 6 0).easeFactor
        = some (max 1.3 (easeOf ⟨0, none, none⟩
            + (0.1 - (5 - ((6 : ℤ) : ℚ)) * (0.08 + (5 - ((6 : ℤ) : ℚ)) * 0.02)))) :=
  c8_amended_no_validation ⟨0, none, none⟩ 0 6 (Or.inr (by norm_num))

theorem c2_fail_resets_witness :
    ((SRSEngine.processReview ⟨0, none, none⟩ 1 0).repetitions = some 0 ↔ (1 : ℤ) < 3)
    ∧ ((1 : ℤ) < 3 →
        (SRSEngine.processReview ⟨0, none, none⟩ 1 0).interval = some 1
        ∧ (SRSEngine.processReview ⟨0, none, none⟩ 1 0).mastered = some false) :=
  c2_fail_resets ⟨0, none, none⟩ 1 0
